import Mathlib

/-!
Shallow embedding of the QSchematic wire/net connectivity core
(src/qschematic/scene.cpp) and the node transform model
(src/unnamed/part_000, the Node member functions).  Coordinates are
modelled as exact rationals; the Qt numeric helpers used by the source
(qRound, qFuzzyCompare, qFuzzyIsNull, QRectF::contains, QSizeF equality)
are embedded by their documented exact formulas, and length comparisons
are carried out on squared distances so everything stays in the rationals.
-/

namespace QSchematic

/-- A 2D point (QPointF / QVector2D), with exact rational coordinates. -/
structure Pt where
  x : ℚ
  y : ℚ
deriving DecidableEq

instance : Inhabited Pt := ⟨⟨0, 0⟩⟩

instance : Add Pt := ⟨fun a b => ⟨a.x + b.x, a.y + b.y⟩⟩

instance : Sub Pt := ⟨fun a b => ⟨a.x - b.x, a.y - b.y⟩⟩

/-- qAbs, written out with an if so concrete instances evaluate by norm_num. -/
def qabs (q : ℚ) : ℚ := if q < 0 then -q else q

/-- qMin, written out with an if so concrete instances evaluate by norm_num. -/
def qmin (a b : ℚ) : ℚ := if a ≤ b then a else b

/-- Squared Euclidean distance.  QVector2D::length() and Line::lenght() are only
ever compared against nonnegative bounds in the embedded code, so every length
comparison is embedded on squares. -/
def distSq (a b : Pt) : ℚ := (a.x - b.x) * (a.x - b.x) + (a.y - b.y) * (a.y - b.y)

/-- Qt qRound: round to the nearest integer, halves away from zero. -/
def qRoundQ (q : ℚ) : ℤ := if 0 ≤ q then ⌊q + 1 / 2⌋ else ⌈q - 1 / 2⌉

/-- QPointF::toPoint(): qRound applied to both coordinates. -/
def qRoundPt (p : Pt) : Pt := ⟨(qRoundQ p.x : ℚ), (qRoundQ p.y : ℚ)⟩

/-- C++ static_cast from a floating value to int: truncation toward zero. -/
def truncQ (q : ℚ) : ℤ := if 0 ≤ q then ⌊q⌋ else ⌈q⌉

/-- qFuzzyIsNull for float arguments (QVector2D components): magnitude at most 1e-5. -/
def qFuzzyIsNullF (q : ℚ) : Bool := decide (qabs q ≤ 1 / 100000)

/-- qFuzzyCompare for float arguments: |a - b| * 1e5 is at most min |a| |b|. -/
def qFuzzyEqF (a b : ℚ) : Bool := decide (qabs (a - b) * 100000 ≤ qmin (qabs a) (qabs b))

/-- qFuzzyCompare for double arguments: |a - b| * 1e12 is at most min |a| |b|. -/
def qFuzzyEqD (a b : ℚ) : Bool :=
  decide (qabs (a - b) * 1000000000000 ≤ qmin (qabs a) (qabs b))

/-- qFuzzyCompare on QVector2D: componentwise float fuzzy comparison. -/
def fuzzyEqPtF (a b : Pt) : Bool := qFuzzyEqF a.x b.x && qFuzzyEqF a.y b.y

/-- Node transform state (Node of the node source file).  The rotation angle is
represented by the exact pair (cos angle, sin angle) stored in rotCS, so the
rotation matrix arithmetic of the source is embedded exactly for every angle,
the grid-aligned angles 0, 90, 180, 270 degrees included. -/
structure NodeM where
  pos : Pt
  size : Pt
  rotCS : Pt
  connectors : List Pt
deriving DecidableEq

/-- transformOriginPoint: maintained as sizeRect().center() — the body-rect
center pivot — by Node::setSize and Node::update. -/
def nodePivot (n : NodeM) : Pt := ⟨n.size.x / 2, n.size.y / 2⟩

/-- The rotation block of Node::connectionPointsRelative: d := origin - pos;
rotated := (cos * dx - sin * dy, sin * dx + cos * dy); result := origin - rotated. -/
def rotateAroundPivot (cs pivot p : Pt) : Pt :=
  let d : Pt := pivot - p
  let rotated : Pt := ⟨cs.x * d.x - cs.y * d.y, cs.y * d.x + cs.x * d.y⟩
  pivot - rotated

/-- Node::connectionPointsRelative.  Modelled from the spec: Connector::connectionPoint()
(connector.cpp is not under src/) is the connector-local attachment offset; per the spec
data model a connector is exactly a point expressed in the node's local coordinate
space, so the attachment offset is the origin and the rotated connector position is
the connection point. -/
def connectionPointsRelative (n : NodeM) : List Pt :=
  n.connectors.map (fun p => rotateAroundPivot n.rotCS (nodePivot n) p)

/-- Node::connectionPointsAbsolute: the relative points plus the node's scene position. -/
def connectionPointsAbsolute (n : NodeM) : List Pt :=
  (connectionPointsRelative n).map (fun p => p + n.pos)

/-- Modelled from the spec: the rotation primitive of the geometry-primitives section —
the standard 2D rotation matrix applied to the vector from pivot to point, the angle
given by its cosine/sine pair. -/
def rotateSpec (cs pivot p : Pt) : Pt :=
  ⟨pivot.x + (cs.x * (p.x - pivot.x) - cs.y * (p.y - pivot.y)),
   pivot.y + (cs.y * (p.x - pivot.x) + cs.x * (p.y - pivot.y))⟩

/-- QSizeF::operator== : componentwise double fuzzy comparison. -/
def qsizeFuzzyEq (a b : Pt) : Bool := qFuzzyEqD a.x b.x && qFuzzyEqD a.y b.y

/-- Node::setSize(QSizeF): early return when the new size fuzzy-equals the current
size (QSizeF equality is fuzzy); reject sizes with width or height below 1;
otherwise store the size, clamping every connector that sat on the old right/bottom
edge or beyond the new one to the new edge.  The transform origin point is
re-derived as the new body center (nodePivot is derived from size in this model). -/
def nodeSetSize (n : NodeM) (sz : Pt) : NodeM :=
  if qsizeFuzzyEq sz n.size then n
  else if sz.x < 1 ∨ sz.y < 1 then n
  else
    ⟨n.pos, sz, n.rotCS,
      n.connectors.map (fun c =>
        ⟨if qFuzzyEqD c.x n.size.x || decide (sz.x < c.x) then sz.x else c.x,
         if qFuzzyEqD c.y n.size.y || decide (sz.y < c.y) then sz.y else c.y⟩)⟩

def nodeC5 : NodeM := ⟨⟨0, 0⟩, ⟨1000000000000, 1⟩, ⟨1, 0⟩, []⟩

def nodeC5b : NodeM := ⟨⟨0, 0⟩, ⟨160, 240⟩, ⟨1, 0⟩, []⟩

/-- QRectF with position and (possibly negative) extents. -/
structure RectF where
  x : ℚ
  y : ℚ
  w : ℚ
  h : ℚ
deriving DecidableEq

/-- One axis of QRectF::contains: the interval from pos to pos + ext, normalized when
the extent ext is negative; a null interval contains nothing. -/
def rectContains1D (pos ext c : ℚ) : Bool :=
  if ext < 0 then
    !(decide (pos + ext = pos)) && decide (pos + ext ≤ c) && decide (c ≤ pos)
  else
    !(decide (pos = pos + ext)) && decide (pos ≤ c) && decide (c ≤ pos + ext)

/-- QRectF::contains(QPointF): both axes, with negative extents normalized. -/
def rectContains (r : RectF) (p : Pt) : Bool :=
  rectContains1D r.x r.w p.x && rectContains1D r.y r.h p.y

/-- Modelled from the spec: Utils::centerPoint (utils.cpp is not under src/) — the
midpoint of two points, used for the edge-midpoint handles and the rotation-handle
anchor. -/
def centerPoint (a b : Pt) : Pt := ⟨(a.x + b.x) / 2, (a.y + b.y) / 2⟩

/-- Node::resizeHandles: the four corner handles always; the top/bottom edge-midpoint
handles only when the width exceeds 7 handle sizes, the left/right ones only when the
height does.  QMap key order only affects which handle is found first; the press
handler reacts to any hit identically, so the handles are listed in insertion order. -/
def resizeHandles (sz : Pt) (rhs : ℚ) : List RectF :=
  let mk : Pt → Pt → RectF := fun base off =>
    ⟨base.x + off.x - rhs, base.y + off.y - rhs, 2 * rhs, 2 * rhs⟩
  [mk ⟨sz.x, sz.y⟩ ⟨1, 1⟩, mk ⟨0, sz.y⟩ ⟨1, 1⟩, mk ⟨sz.x, 0⟩ ⟨1, 1⟩, mk ⟨0, 0⟩ ⟨1, 1⟩]
  ++ (if 7 * rhs < sz.x then
        [mk (centerPoint ⟨sz.x, 0⟩ ⟨0, 0⟩) ⟨1, 1⟩,
         mk (centerPoint ⟨sz.x, sz.y⟩ ⟨0, sz.y⟩) ⟨1, 1⟩]
      else [])
  ++ (if 7 * rhs < sz.y then
        [mk (centerPoint ⟨sz.x, 0⟩ ⟨sz.x, sz.y⟩) ⟨1, 0⟩,
         mk (centerPoint ⟨0, sz.y⟩ ⟨0, 0⟩) ⟨1, 0⟩]
      else [])

/-- Node::rotationHandle: anchored 3 handle sizes above the top-edge midpoint. -/
def rotationHandle (sz : Pt) (rhs : ℚ) : RectF :=
  let c := centerPoint ⟨sz.x, 0⟩ ⟨0, 0⟩
  ⟨c.x + 1 - rhs, c.y - 3 * rhs - rhs, 2 * rhs, 2 * rhs⟩

inductive NodeMode where
  | noneMode
  | resize
  | rotate
deriving DecidableEq

/-- Node::mousePressEvent mode selection: the mode is first reset to None; if the node
is selected and mouse resizing is allowed, the resize handles are scanned and a hit
enters Resize; then, if the node is selected and mouse rotation is allowed and the
rotation handle contains the pressed point, the mode is set to Rotate — this second
test runs unconditionally after the resize scan and overwrites its result. -/
def nodeMousePressMode (sz : Pt) (rhs : ℚ) (selected allowResize allowRotate : Bool)
    (eventPos : Pt) : NodeMode :=
  let p := qRoundPt eventPos
  let m1 := if selected && allowResize
                && (resizeHandles sz rhs).any (fun r => rectContains r p)
            then NodeMode.resize else NodeMode.noneMode
  if selected && allowRotate && rectContains (rotationHandle sz rhs) p
  then NodeMode.rotate else m1

/-- Modelled from the spec: Wire::movePointBy (wire.cpp is not under src/) — translate
the vertex at the given index by the given delta; an out-of-range index leaves the
polyline unchanged. -/
def movePointBy : List Pt → Nat → Pt → List Pt
  | [], _, _ => []
  | p :: ps, 0, d => (p + d) :: ps
  | p :: ps, k + 1, d => p :: movePointBy ps k d

/-- Modelled from the spec: Wire::moveLineSegmentBy — slide an entire segment (the
vertices at index and index + 1) by the delta. -/
def moveLineSegmentBy (l : List Pt) (i : Nat) (d : Pt) : List Pt :=
  movePointBy (movePointBy l i d) (i + 1) d

/-- The inserted location for a horizontal single segment in Scene::wireMovePoint:
the endpoint with the smaller x, plus static_cast int of (length / 2) in x
(Line::lenght() of an axis-aligned segment equals the coordinate difference). -/
def insPointH (a b : Pt) : Pt :=
  ⟨(if b.x < a.x then b else a).x + (truncQ (qabs (b.x - a.x) / 2) : ℚ),
   (if b.x < a.x then b else a).y⟩

/-- The inserted location for a vertical single segment, exactly as the source
computes it: the upperPoint is chosen by comparing the x coordinates — which are
equal on a vertical line, so the first endpoint is always chosen, even when it is
the lower one — and static_cast int of (length / 2) is added to its y. -/
def insPointV (a b : Pt) : Pt :=
  ⟨(if b.x < a.x then b else a).x,
   (if b.x < a.x then b else a).y + (truncQ (qabs (b.y - a.y) / 2) : ℚ)⟩

/-- The two-point insertion block of Scene::wireMovePoint: when the wire has exactly
two points and the preserve-straight-angles policy is on, and the requested move has
a component perpendicular to the single segment's orientation (not fuzzy-null), the
computed point is inserted twice at index 1 (Line::isHorizontal and isVertical are
exact one-coordinate comparisons). -/
def wireMoveInsertTwo (preserve : Bool) (pts : List Pt) (mb : Pt) : List Pt :=
  match pts with
  | [a, b] =>
    if preserve = true then
      if (a.y = b.y ∧ qFuzzyIsNullF mb.y = false) ∨
         (a.x = b.x ∧ qFuzzyIsNullF mb.x = false) then
        if a.y = b.y then [a, insPointH a b, insPointH a b, b]
        else [a, insPointV a b, insPointV a b, b]
      else [a, b]
    else [a, b]
  | other => other

/-- The vertex-match loop of Scene::wireMovePoint: the index of the first vertex whose
position fuzzy-compares equal (QVector2D float comparison) to the target. -/
def findMatchIdx (t : Pt) : List Pt → Option Nat
  | [] => none
  | p :: ps => if fuzzyEqPtF p t = true then some 0 else (findMatchIdx t ps).map Nat.succ

/-- The anti-collision slide on the predecessor side of Scene::wireMovePoint: when the
wire has more than 3 points, the matched index is at least 2 and the moved vertex
would land within 2 units of the predecessor (length comparison on squares), segment
i - 2 is slid by the full delta. -/
def prevSlide (cur : Pt) (pts : List Pt) (i : Nat) (mb : Pt) : List Pt :=
  if 3 < pts.length ∧ 2 ≤ i ∧ distSq (cur + mb) (pts.getD (i - 1) default) ≤ 4
  then moveLineSegmentBy pts (i - 2) mb else pts

/-- The predecessor adjustment of Scene::wireMovePoint (preserve-straight-angles
branch): when the matched vertex has a predecessor, after the optional anti-collision
slide the predecessor is moved by the y component of the delta when the
predecessor-to-current segment is horizontal (exact comparison, tested on the
pre-slide positions as in the source), by the x component when it is vertical, and
not at all when the segment is diagonal. -/
def prevAdjust (cur : Pt) (pts : List Pt) (i : Nat) (mb : Pt) : List Pt :=
  if 1 ≤ i then
    if (pts.getD (i - 1) default).y = cur.y then
      movePointBy (prevSlide cur pts i mb) (i - 1) ⟨0, mb.y⟩
    else if (pts.getD (i - 1) default).x = cur.x then
      movePointBy (prevSlide cur pts i mb) (i - 1) ⟨mb.x, 0⟩
    else prevSlide cur pts i mb
  else pts

/-- The anti-collision slide on the successor side: when the wire has more than 3
points and the moved vertex would land within 2 units of the successor, segment i + 1
is slid by the full delta (the source imposes no lower bound on i here). -/
def nextSlide (cur : Pt) (pts : List Pt) (i : Nat) (mb : Pt) : List Pt :=
  if 3 < pts.length ∧ distSq (cur + mb) (pts.getD (i + 1) default) ≤ 4
  then moveLineSegmentBy pts (i + 1) mb else pts

/-- The successor adjustment of Scene::wireMovePoint, symmetric to prevAdjust: the
successor position and the segment orientation are read before the slide, the
constrained move is applied after it. -/
def nextAdjust (cur : Pt) (pts : List Pt) (i : Nat) (mb : Pt) : List Pt :=
  if i < pts.length - 1 then
    if cur.y = (pts.getD (i + 1) default).y then
      movePointBy (nextSlide cur pts i mb) (i + 1) ⟨0, mb.y⟩
    else if cur.x = (pts.getD (i + 1) default).x then
      movePointBy (nextSlide cur pts i mb) (i + 1) ⟨mb.x, 0⟩
    else nextSlide cur pts i mb
  else pts

/-- The per-match mutation block of Scene::wireMovePoint: under the
preserve-straight-angles policy the predecessor side is adjusted first, then the
successor side (reading the successor from the already-adjusted list, as the source
re-reads pointsRelative()), and finally the matched vertex itself is moved by the
full delta unconditionally. -/
def wireApplyMove (preserve : Bool) (pts : List Pt) (i : Nat) (mb : Pt) : List Pt :=
  if preserve = true then
    movePointBy
      (nextAdjust (pts.getD i default) (prevAdjust (pts.getD i default) pts i mb) i mb)
      i mb
  else movePointBy pts i mb

/-- Scene::wireMovePoint: the optional two-point insertion, then the first vertex
fuzzy-matching point - movedBy (if any) is processed by wireApplyMove; when no vertex
matches, nothing is moved. -/
def wireMovePoint (preserve : Bool) (point : Pt) (pts : List Pt) (mb : Pt) : List Pt :=
  match findMatchIdx (point - mb) (wireMoveInsertTwo preserve pts mb) with
  | none => wireMoveInsertTwo preserve pts mb
  | some i => wireApplyMove preserve (wireMoveInsertTwo preserve pts mb) i mb

/-- A wire: its ordered vertex list plus a stable identity standing for shared_ptr
identity in the source.  Wire scene positions are taken as the origin, so the
relative and absolute vertex coordinates agree (the source compares pointsRelative
of one wire against absolute positions of another only through this convention). -/
structure WireM where
  id : Nat
  points : List Pt
deriving DecidableEq

/-- A wire net: name, highlight flag and member wires.  Modelled from the spec:
WireNet (wirenet.cpp is not under src/) owns an unordered collection of wires with a
name and a highlight boolean; addWire appends, removeWire detaches by identity,
contains tests membership by identity. -/
structure WireNetM where
  name : String
  highlighted : Bool
  wires : List WireM
deriving DecidableEq

/-- The scene state the connectivity manager operates on: the flat item list (only
wires matter to the embedded operations) and the net list. -/
structure SceneM where
  items : List WireM
  nets : List WireNetM
deriving DecidableEq

def dotPP (u v : Pt) : ℚ := u.x * v.x + u.y * v.y

def crossPP (u v : Pt) : ℚ := u.x * v.y - u.y * v.x

/-- Modelled from the spec: Line::containsPoint(point, tolerance) (line.cpp is not
under src/) — project the point onto the segment and accept when the perpendicular
distance is at most the tolerance and the projection falls within the segment
extent; all comparisons are taken on squares to stay in the rationals, and a
degenerate segment contains exactly the points within the tolerance of its single
position.  The declaration's default tolerance is 0 (spec: default about 0). -/
def containsPointQ (p1 p2 q : Pt) (tol : ℚ) : Bool :=
  if dotPP (p2 - p1) (p2 - p1) = 0 then decide (distSq q p1 ≤ tol * tol)
  else
    decide (0 ≤ dotPP (q - p1) (p2 - p1)) &&
    decide (dotPP (q - p1) (p2 - p1) ≤ dotPP (p2 - p1) (p2 - p1)) &&
    decide (crossPP (p2 - p1) (q - p1) * crossPP (p2 - p1) (q - p1)
      ≤ tol * tol * dotPP (p2 - p1) (p2 - p1))

/-- Wire::lineSegments, modelled from the spec: the consecutive vertex pairs. -/
def wireSegments (w : WireM) : List (Pt × Pt) := w.points.zip w.points.tail

/-- WireNet::lineSegments, modelled from the spec: the segments of all member wires. -/
def netLineSegments (n : WireNetM) : List (Pt × Pt) := n.wires.flatMap wireSegments

/-- WireNet::contains, modelled from the spec: membership by wire identity; a null
wire is contained in no net. -/
def netContains (n : WireNetM) : Option WireM → Bool
  | none => false
  | some w => n.wires.any (fun x => x.id == w.id)

/-- The first scan of Scene::addWire: some point of the new wire — rounded to integer
coordinates by QPointF::toPoint — lies on some line segment of the net, with
tolerance 0 (not the 0.001 epsilon). -/
def addWireScan1 (w : WireM) (n : WireNetM) : Bool :=
  (netLineSegments n).any (fun seg => w.points.any (fun p =>
    containsPointQ seg.1 seg.2 (qRoundPt p) 0))

/-- The second scan of Scene::addWire: some vertex of a wire already in the net —
rounded to integer coordinates — lies on some line segment of the new wire, with the
default tolerance 0. -/
def addWireScan2 (w : WireM) (n : WireNetM) : Bool :=
  n.wires.any (fun ow => ow.points.any (fun op =>
    (wireSegments w).any (fun seg => containsPointQ seg.1 seg.2 (qRoundPt op) 0)))

/-- Attach the wire to the first net satisfying the hit predicate, in net-list order
(WireNet::addWire appends, modelled from the spec). -/
def attachToNet (w : WireM) (hit : WireM → WireNetM → Bool) :
    List WireNetM → Option (List WireNetM)
  | [] => none
  | n :: rest =>
    if hit w n then some (⟨n.name, n.highlighted, n.wires ++ [w]⟩ :: rest)
    else (attachToNet w hit rest).map (fun l => n :: l)

/-- Scene::addWire: a null wire fails; otherwise try the net-segment scan, then the
existing-vertex scan, else create a fresh net (default-constructed: empty name, not
highlighted) holding just this wire and add the wire to the item list when it is not
already there (wires placed by mouse interaction are already in the scene); every
non-null path returns true. -/
def sceneAddWire (s : SceneM) : Option WireM → SceneM × Bool
  | none => (s, false)
  | some w =>
    match attachToNet w addWireScan1 s.nets with
    | some nets1 => (⟨s.items, nets1⟩, true)
    | none =>
      match attachToNet w addWireScan2 s.nets with
      | some nets1 => (⟨s.items, nets1⟩, true)
      | none =>
        if s.items.any (fun it => it.id == w.id) then
          (⟨s.items, s.nets ++ [⟨"", false, [w]⟩]⟩, true)
        else
          (⟨s.items ++ [w], s.nets ++ [⟨"", false, [w]⟩]⟩, true)

/-- Scene::removeWire: remove the wire from the item list (removeItem on a null wire
returns early and changes nothing), detach the wire from every net containing it,
then delete every net whose wire count is below 1 — the source runs this deletion
check on every net, also on a null input — and return true unconditionally. -/
def sceneRemoveWire (s : SceneM) : Option WireM → SceneM × Bool
  | none => (⟨s.items, s.nets.filter (fun n => decide (1 ≤ n.wires.length))⟩, true)
  | some w =>
    (⟨s.items.filter (fun it => !(it.id == w.id)),
      (s.nets.map (fun n => if netContains n (some w) then
          (⟨n.name, n.highlighted, n.wires.filter (fun x => !(x.id == w.id))⟩ : WireNetM)
        else n)).filter (fun n => decide (1 ≤ n.wires.length))⟩, true)

/-- The net-detach block of Scene::wirePointMoved: remove the wire from the first net
containing it (a wire is in at most one net, so the source breaks there), clearing
that net's highlight, and erase the net when it has no wires left. -/
def removeFromFirstNet : Option WireM → List WireNetM → List WireNetM
  | none, nets => nets
  | some _, [] => []
  | some w, n :: rest =>
    if netContains n (some w) then
      if (n.wires.filter (fun x => !(x.id == w.id))).length = 0 then rest
      else ⟨n.name, false, n.wires.filter (fun x => !(x.id == w.id))⟩ :: rest
    else n :: removeFromFirstNet (some w) rest

/-- Scene::wirePointMoved: detach the wire from its current net — destroying the net
when it is left empty — and re-run the wire through Scene::addWire.  The source looks
the raw wire up among the scene items; when it is absent the shared pointer stays
null and both steps leave the scene unchanged. -/
def sceneWirePointMoved (s : SceneM) (ow : Option WireM) : SceneM :=
  (sceneAddWire ⟨s.items, removeFromFirstNet ow s.nets⟩ ow).1

/-- QString::compare with Qt::CaseInsensitive, modelled by lowercase folding. -/
def qstrCIEq (a b : String) : Bool := a.data.map Char.toLower == b.data.map Char.toLower

/-- Scene::nets(wireNet): every net of the scene's net list whose name is non-empty
and equal, case-insensitively, to the argument's name.  The argument itself is not
excluded — the caller wireNetHighlightChanged performs the self-exclusion — and
null entries are skipped (the model holds no nulls). -/
def sceneNetsOf (s : SceneM) (wn : WireNetM) : List WireNetM :=
  s.nets.filter (fun n => !(n.name == "") && qstrCIEq n.name wn.name)

/-- Scene::wires: the wires of all nets, in net order. -/
def sceneWires (s : SceneM) : List WireM := s.nets.flatMap (fun n => n.wires)

/-- Scene::wiresConnectedTo: every wire having some vertex strictly within 0.001
scene units (compared on squares) of some absolute connection point of the node
shifted by the offset; the source appends the wire once per matching vertex (its
break leaves only the inner connection-point loop), so a wire can occur twice. -/
def wiresConnectedTo (s : SceneM) (node : NodeM) (offset : Pt) : List WireM :=
  (sceneWires s).flatMap (fun w =>
    w.points.flatMap (fun wp =>
      if (connectionPointsAbsolute node).any (fun cp =>
          decide (distSq wp (cp + offset) < 1 / 1000 * (1 / 1000))) then [w] else []))

def wW : WireM := ⟨7, []⟩

def sW : SceneM := ⟨[wW], [⟨"", false, [wW]⟩]⟩

def sRW : SceneM := ⟨[], [⟨"", false, [⟨5, []⟩]⟩]⟩

def netN8 : WireNetM := ⟨"Vcc", false, [⟨1, []⟩]⟩

def s8 : SceneM := ⟨[], [netN8]⟩

def wA6 : WireM := ⟨1, [⟨0, 0⟩, ⟨10, 0⟩]⟩

def wB6 : WireM := ⟨2, [⟨0, 2 / 5⟩, ⟨20, 2 / 5⟩]⟩

def s6 : SceneM := ⟨[wA6], [⟨"", false, [wA6]⟩]⟩

theorem Pt.add_def (a b : Pt) : a + b = ⟨a.x + b.x, a.y + b.y⟩ := rfl

theorem Pt.sub_def (a b : Pt) : a - b = ⟨a.x - b.x, a.y - b.y⟩ := rfl

theorem Pt.mk_eq_iff {x1 y1 x2 y2 : ℚ} :
    (⟨x1, y1⟩ : Pt) = ⟨x2, y2⟩ ↔ x1 = x2 ∧ y1 = y2 := by
  constructor
  · intro h
    injection h with hx hy
    exact ⟨hx, hy⟩
  · rintro ⟨hx, hy⟩
    rw [hx, hy]

/-- Claim C1: for every node with rotation angle theta (embedded by its exact
cosine/sine pair) and every connector with local position p,
connectionPointsRelative() returns p rotated about the node's pivot (the body-rect
center) by theta, and connectionPointsAbsolute() returns that rotated point plus the
node's scene position.  The identity is exact over the rationals for every angle, so
in particular it holds exactly at 0, 90, 180 and 270 degrees and (up to the floating
representation of cos/sin, which the rational model idealizes) at 37 degrees. -/
theorem c1_connection_points_rotation (n : NodeM) :
    connectionPointsAbsolute n =
      n.connectors.map (fun p => rotateSpec n.rotCS (nodePivot n) p + n.pos) := by
  unfold connectionPointsAbsolute connectionPointsRelative
  rw [List.map_map]
  congr 1
  funext p
  show rotateAroundPivot n.rotCS (nodePivot n) p + n.pos
      = rotateSpec n.rotCS (nodePivot n) p + n.pos
  unfold rotateAroundPivot rotateSpec
  simp only [Pt.sub_def, Pt.add_def]
  rw [Pt.mk_eq_iff]
  constructor
  · ring
  · ring

/-- Claim C5 counterexample: on a node of size (1e12, 1), the call
setSize(1e12 + 1, 1) has width and height at least 1 and a size that differs from
the current one, yet it is a no-op, because the source compares the sizes with
QSizeF::operator==, which is a relative fuzzy comparison (1e-12), not exact
inequality.  The claim demands the size become (1e12 + 1, 1). -/
theorem c5_setsize_counterexample :
    (1 : ℚ) ≤ 1000000000001 ∧ (1 : ℚ) ≤ 1 ∧
    (⟨1000000000001, 1⟩ : Pt) ≠ nodeC5.size ∧
    (nodeSetSize nodeC5 ⟨1000000000001, 1⟩).size = ⟨1000000000000, 1⟩ := by
  refine ⟨by norm_num, le_refl 1, ?_, ?_⟩
  · intro h
    rw [nodeC5] at h
    injection h with h1 h2
    norm_num at h1
  · norm_num [nodeSetSize, nodeC5, qsizeFuzzyEq, qFuzzyEqD, qabs, qmin]

/-- Claim C5 amended: for every call setSize(w, h): if w and h are at least 1 and
(w, h) is not fuzzy-equal (QSizeF's relative 1e-12 comparison, exact equality
included) to the current size, the node's size afterwards equals (w, h); otherwise
(w below 1, h below 1, or fuzzy-equal size) the call is a no-op and the node is
unchanged. -/
theorem c5_setsize (n : NodeM) (w h : ℚ) :
    (qsizeFuzzyEq ⟨w, h⟩ n.size = false → 1 ≤ w → 1 ≤ h →
       (nodeSetSize n ⟨w, h⟩).size = ⟨w, h⟩) ∧
    (qsizeFuzzyEq ⟨w, h⟩ n.size = true ∨ w < 1 ∨ h < 1 →
       nodeSetSize n ⟨w, h⟩ = n) := by
  constructor
  · intro hf hw hh
    unfold nodeSetSize
    rw [if_neg (by rw [hf]; exact Bool.false_ne_true),
      if_neg (show ¬((⟨w, h⟩ : Pt).x < 1 ∨ (⟨w, h⟩ : Pt).y < 1) by
        push_neg
        exact ⟨hw, hh⟩)]
  · intro hcase
    unfold nodeSetSize
    by_cases hb : qsizeFuzzyEq ⟨w, h⟩ n.size = true
    · rw [if_pos hb]
    · have hd : (⟨w, h⟩ : Pt).x < 1 ∨ (⟨w, h⟩ : Pt).y < 1 := by
        rcases hcase with hf | hw | hh
        · exact absurd hf hb
        · exact Or.inl hw
        · exact Or.inr hh
      rw [if_neg hb, if_pos hd]

theorem c5_setsize_witness :
    (qsizeFuzzyEq ⟨2, 3⟩ nodeC5b.size = false) ∧
    (nodeSetSize nodeC5b ⟨2, 3⟩).size = ⟨2, 3⟩ ∧
    nodeSetSize nodeC5b ⟨0, 5⟩ = nodeC5b :=
  ⟨by norm_num [qsizeFuzzyEq, qFuzzyEqD, qabs, qmin, nodeC5b],
   (c5_setsize nodeC5b 2 3).1
     (by norm_num [qsizeFuzzyEq, qFuzzyEqD, qabs, qmin, nodeC5b]) (by norm_num) (by norm_num),
   (c5_setsize nodeC5b 0 5).2 (Or.inr (Or.inl (by norm_num)))⟩

/-- Claim C7 counterexample: with resize-handle size -1 on a 4 by 4 node, the pressed
point (2, 2) lies inside a resize handle and inside the rotation handle (QRectF
normalizes the negative extents), yet the interaction mode entered is Rotate, not
Resize as the claim demands: the rotate hit-test runs after the resize scan and
overrides it. -/
theorem c7_mode_counterexample :
    (resizeHandles ⟨4, 4⟩ (-1)).any (fun r => rectContains r (qRoundPt ⟨2, 2⟩)) = true ∧
    rectContains (rotationHandle ⟨4, 4⟩ (-1)) (qRoundPt ⟨2, 2⟩) = true ∧
    nodeMousePressMode ⟨4, 4⟩ (-1) true true true ⟨2, 2⟩ = NodeMode.rotate := by
  refine ⟨?_, ?_, ?_⟩
  · norm_num [resizeHandles, rectContains, rectContains1D, centerPoint, qRoundPt, qRoundQ]
  · norm_num [rotationHandle, rectContains, rectContains1D, centerPoint, qRoundPt, qRoundQ]
  · norm_num [nodeMousePressMode, resizeHandles, rotationHandle, rectContains,
      rectContains1D, centerPoint, qRoundPt, qRoundQ]

/-- Claim C7 amended: when a mouse press on a selected node (with both mouse-resize
and mouse-rotate allowed) lands inside both a resize handle and the rotation handle,
the interaction mode entered is Rotate: the resize-handle hit-test runs first, but the
rotate-handle hit-test runs after it without an else and overrides it, so the rotation
handle wins whenever it contains the point; the mode is entered only from None (the
handler resets the mode to None before testing).  For nonnegative handle sizes the two
handle sets are disjoint, so the overlap only arises with a negative resize-handle
size. -/
theorem c7_mode_on_overlap (sz : Pt) (rhs : ℚ) (eventPos : Pt)
    (_hre : (resizeHandles sz rhs).any (fun r => rectContains r (qRoundPt eventPos)) = true)
    (hro : rectContains (rotationHandle sz rhs) (qRoundPt eventPos) = true) :
    nodeMousePressMode sz rhs true true true eventPos = NodeMode.rotate := by
  unfold nodeMousePressMode
  simp [hro]

theorem c7_mode_on_overlap_witness :
    ((resizeHandles ⟨4, 4⟩ (-1)).any (fun r => rectContains r (qRoundPt ⟨2, 2⟩)) = true) ∧
    nodeMousePressMode ⟨4, 4⟩ (-1) true true true ⟨2, 2⟩ = NodeMode.rotate :=
  ⟨by norm_num [resizeHandles, rectContains, rectContains1D, centerPoint, qRoundPt, qRoundQ],
   c7_mode_on_overlap ⟨4, 4⟩ (-1) ⟨2, 2⟩
     (by norm_num [resizeHandles, rectContains, rectContains1D, centerPoint, qRoundPt, qRoundQ])
     (by norm_num [rotationHandle, rectContains, rectContains1D, centerPoint, qRoundPt, qRoundQ])⟩

/-- Claim C3 (code bug witness): on the two-point vertical wire from (0,10) down to
(0,0) with the preserve-straight-angles policy active and a requested move with a
nonzero x component, the source inserts the two new points at (0,15) — off the
segment, whose midpoint is (0,5) — because the upperPoint is selected by comparing
the x coordinates, which are equal on a vertical line, so the first endpoint is taken
even though it is the lower one.  The point count still grows by exactly 2. -/
theorem c3_insertion_eval :
    wireMoveInsertTwo true [⟨0, 10⟩, ⟨0, 0⟩] ⟨1, 0⟩
        = [⟨0, 10⟩, ⟨0, 15⟩, ⟨0, 15⟩, ⟨0, 0⟩] ∧
    centerPoint ⟨0, 10⟩ ⟨0, 0⟩ = ⟨0, 5⟩ ∧
    (wireMoveInsertTwo true [⟨0, 10⟩, ⟨0, 0⟩] ⟨1, 0⟩).length = 2 + 2 := by
  refine ⟨?_, ?_, ?_⟩
  · norm_num [wireMoveInsertTwo, insPointV, qFuzzyIsNullF, qabs, truncQ]
  · norm_num [centerPoint]
  · norm_num [wireMoveInsertTwo, insPointV, qFuzzyIsNullF, qabs, truncQ]

theorem movePointBy_length (l : List Pt) (i : Nat) (d : Pt) :
    (movePointBy l i d).length = l.length := by
  induction l generalizing i with
  | nil => rfl
  | cons p ps ih =>
    cases i with
    | zero => rfl
    | succ k => simp [movePointBy, ih]

theorem moveLineSegmentBy_length (l : List Pt) (i : Nat) (d : Pt) :
    (moveLineSegmentBy l i d).length = l.length := by
  simp [moveLineSegmentBy, movePointBy_length]

theorem getD_movePointBy_ne (l : List Pt) (i j : Nat) (d z : Pt) (h : i ≠ j) :
    (movePointBy l i d).getD j z = l.getD j z := by
  induction l generalizing i j with
  | nil => rfl
  | cons p ps ih =>
    cases i with
    | zero =>
      cases j with
      | zero => exact absurd rfl h
      | succ m => simp [movePointBy]
    | succ k =>
      cases j with
      | zero => simp [movePointBy]
      | succ m =>
        simp only [movePointBy, List.getD_cons_succ]
        exact ih k m (fun hh => h (by rw [hh]))

theorem getD_movePointBy_self (l : List Pt) (i : Nat) (d z : Pt) (h : i < l.length) :
    (movePointBy l i d).getD i z = l.getD i z + d := by
  induction l generalizing i with
  | nil => simp at h
  | cons p ps ih =>
    cases i with
    | zero => simp [movePointBy]
    | succ k =>
      simp only [movePointBy, List.getD_cons_succ]
      exact ih k (by simpa using h)

theorem getD_moveLineSegmentBy_ne (l : List Pt) (i j : Nat) (d z : Pt)
    (h1 : i ≠ j) (h2 : i + 1 ≠ j) :
    (moveLineSegmentBy l i d).getD j z = l.getD j z := by
  unfold moveLineSegmentBy
  rw [getD_movePointBy_ne _ _ _ _ _ h2, getD_movePointBy_ne _ _ _ _ _ h1]

theorem findMatchIdx_lt (t : Pt) (l : List Pt) (i : Nat)
    (h : findMatchIdx t l = some i) : i < l.length := by
  induction l generalizing i with
  | nil => exact absurd h (by simp [findMatchIdx])
  | cons p ps ih =>
    unfold findMatchIdx at h
    by_cases hc : fuzzyEqPtF p t = true
    · rw [if_pos hc] at h
      injection h with h
      subst h
      simp
    · rw [if_neg hc] at h
      cases hm : findMatchIdx t ps with
      | none => rw [hm] at h; exact absurd h (by simp)
      | some k =>
        rw [hm] at h
        injection h with h
        have hk := ih k hm
        subst h
        simpa using Nat.succ_lt_succ hk

theorem prevSlide_length (cur : Pt) (pts : List Pt) (i : Nat) (mb : Pt) :
    (prevSlide cur pts i mb).length = pts.length := by
  unfold prevSlide
  split
  · exact moveLineSegmentBy_length pts (i - 2) mb
  · rfl

theorem nextSlide_length (cur : Pt) (pts : List Pt) (i : Nat) (mb : Pt) :
    (nextSlide cur pts i mb).length = pts.length := by
  unfold nextSlide
  split
  · exact moveLineSegmentBy_length pts (i + 1) mb
  · rfl

theorem prevAdjust_length (cur : Pt) (pts : List Pt) (i : Nat) (mb : Pt) :
    (prevAdjust cur pts i mb).length = pts.length := by
  unfold prevAdjust
  split
  · split
    · rw [movePointBy_length, prevSlide_length]
    · split
      · rw [movePointBy_length, prevSlide_length]
      · exact prevSlide_length cur pts i mb
  · rfl

theorem nextAdjust_length (cur : Pt) (pts : List Pt) (i : Nat) (mb : Pt) :
    (nextAdjust cur pts i mb).length = pts.length := by
  unfold nextAdjust
  split
  · split
    · rw [movePointBy_length, nextSlide_length]
    · split
      · rw [movePointBy_length, nextSlide_length]
      · exact nextSlide_length cur pts i mb
  · rfl

theorem getD_prevSlide_far (cur : Pt) (pts : List Pt) (i : Nat) (mb z : Pt) (j : Nat)
    (h1 : j ≠ i - 1) (h2 : j ≠ i - 2) :
    (prevSlide cur pts i mb).getD j z = pts.getD j z := by
  unfold prevSlide
  split
  case isTrue hc =>
    exact getD_moveLineSegmentBy_ne _ _ _ _ _ (fun hh => h2 hh.symm)
      (by omega)
  case isFalse hc => rfl

theorem getD_nextSlide_far (cur : Pt) (pts : List Pt) (i : Nat) (mb z : Pt) (j : Nat)
    (h1 : j ≠ i + 1) (h2 : j ≠ i + 2) :
    (nextSlide cur pts i mb).getD j z = pts.getD j z := by
  unfold nextSlide
  split
  · exact getD_moveLineSegmentBy_ne _ _ _ _ _ (fun hh => h1 hh.symm)
      (by omega)
  · rfl

theorem getD_prevAdjust_far (cur : Pt) (pts : List Pt) (i : Nat) (mb z : Pt) (j : Nat)
    (h1 : j ≠ i - 1) (h2 : j ≠ i - 2) :
    (prevAdjust cur pts i mb).getD j z = pts.getD j z := by
  unfold prevAdjust
  split
  · split
    · rw [getD_movePointBy_ne _ _ _ _ _ (fun hh => h1 hh.symm),
        getD_prevSlide_far cur pts i mb z j h1 h2]
    · split
      · rw [getD_movePointBy_ne _ _ _ _ _ (fun hh => h1 hh.symm),
          getD_prevSlide_far cur pts i mb z j h1 h2]
      · exact getD_prevSlide_far cur pts i mb z j h1 h2
  · rfl

theorem getD_nextAdjust_far (cur : Pt) (pts : List Pt) (i : Nat) (mb z : Pt) (j : Nat)
    (h1 : j ≠ i + 1) (h2 : j ≠ i + 2) :
    (nextAdjust cur pts i mb).getD j z = pts.getD j z := by
  unfold nextAdjust
  split
  · split
    · rw [getD_movePointBy_ne _ _ _ _ _ (fun hh => h1 hh.symm),
        getD_nextSlide_far cur pts i mb z j h1 h2]
    · split
      · rw [getD_movePointBy_ne _ _ _ _ _ (fun hh => h1 hh.symm),
          getD_nextSlide_far cur pts i mb z j h1 h2]
      · exact getD_nextSlide_far cur pts i mb z j h1 h2
  · rfl

theorem wireMoveInsertTwo_ne_two (preserve : Bool) (pts : List Pt) (mb : Pt)
    (h : pts.length ≠ 2) : wireMoveInsertTwo preserve pts mb = pts := by
  cases pts with
  | nil => rfl
  | cons a l1 =>
    cases l1 with
    | nil => rfl
    | cons b l2 =>
      cases l2 with
      | nil => exact absurd rfl h
      | cons c l3 => rfl

theorem getD_prevAdjust_at (cur : Pt) (pts : List Pt) (i : Nat) (mb z : Pt) :
    (prevAdjust cur pts i mb).getD i z = pts.getD i z := by
  by_cases h : 1 ≤ i
  · exact getD_prevAdjust_far cur pts i mb z i (by omega) (by omega)
  · unfold prevAdjust
    rw [if_neg h]

theorem getD_nextAdjust_at (cur : Pt) (pts : List Pt) (i : Nat) (mb z : Pt) :
    (nextAdjust cur pts i mb).getD i z = pts.getD i z :=
  getD_nextAdjust_far cur pts i mb z i (by omega) (by omega)

theorem getD_wireApplyMove_at (preserve : Bool) (pts : List Pt) (i : Nat) (mb : Pt)
    (h : i < pts.length) :
    (wireApplyMove preserve pts i mb).getD i default = pts.getD i default + mb := by
  unfold wireApplyMove
  split
  · rw [getD_movePointBy_self _ _ _ _
        (by rw [nextAdjust_length, prevAdjust_length]; exact h),
      getD_nextAdjust_at, getD_prevAdjust_at]
  · exact getD_movePointBy_self _ _ _ _ h

theorem getD_wireApplyMove_prevpos (pts : List Pt) (i : Nat) (mb : Pt) (hi : 1 ≤ i) :
    (wireApplyMove true pts i mb).getD (i - 1) default
      = (prevAdjust (pts.getD i default) pts i mb).getD (i - 1) default := by
  unfold wireApplyMove
  rw [if_pos rfl, getD_movePointBy_ne _ _ _ _ _ (by omega),
    getD_nextAdjust_far _ _ _ _ _ _ (by omega) (by omega)]

theorem getD_wireApplyMove_nextpos (pts : List Pt) (i : Nat) (mb : Pt) :
    (wireApplyMove true pts i mb).getD (i + 1) default
      = (nextAdjust (pts.getD i default) (prevAdjust (pts.getD i default) pts i mb)
          i mb).getD (i + 1) default := by
  unfold wireApplyMove
  rw [if_pos rfl, getD_movePointBy_ne _ _ _ _ _ (by omega)]

theorem getD_prevAdjust_prev_h (cur : Pt) (pts : List Pt) (i : Nat) (mb : Pt)
    (hi : 1 ≤ i) (hil : i - 1 < pts.length)
    (hns : ¬(3 < pts.length ∧ 2 ≤ i ∧ distSq (cur + mb) (pts.getD (i - 1) default) ≤ 4))
    (hh : (pts.getD (i - 1) default).y = cur.y) :
    (prevAdjust cur pts i mb).getD (i - 1) default
      = pts.getD (i - 1) default + ⟨0, mb.y⟩ := by
  unfold prevAdjust
  rw [if_pos hi, if_pos hh]
  unfold prevSlide
  rw [if_neg hns]
  exact getD_movePointBy_self _ _ _ _ hil

theorem getD_prevAdjust_prev_v (cur : Pt) (pts : List Pt) (i : Nat) (mb : Pt)
    (hi : 1 ≤ i) (hil : i - 1 < pts.length)
    (hns : ¬(3 < pts.length ∧ 2 ≤ i ∧ distSq (cur + mb) (pts.getD (i - 1) default) ≤ 4))
    (hh : ¬(pts.getD (i - 1) default).y = cur.y)
    (hv : (pts.getD (i - 1) default).x = cur.x) :
    (prevAdjust cur pts i mb).getD (i - 1) default
      = pts.getD (i - 1) default + ⟨mb.x, 0⟩ := by
  unfold prevAdjust
  rw [if_pos hi, if_neg hh, if_pos hv]
  unfold prevSlide
  rw [if_neg hns]
  exact getD_movePointBy_self _ _ _ _ hil

theorem getD_nextAdjust_next_h (cur : Pt) (pts : List Pt) (i : Nat) (mb : Pt)
    (hi : i < pts.length - 1)
    (hns : ¬(3 < pts.length ∧ distSq (cur + mb) (pts.getD (i + 1) default) ≤ 4))
    (hh : cur.y = (pts.getD (i + 1) default).y) :
    (nextAdjust cur pts i mb).getD (i + 1) default
      = pts.getD (i + 1) default + ⟨0, mb.y⟩ := by
  unfold nextAdjust
  rw [if_pos hi, if_pos hh]
  unfold nextSlide
  rw [if_neg hns]
  exact getD_movePointBy_self _ _ _ _ (by omega)

theorem getD_nextAdjust_next_v (cur : Pt) (pts : List Pt) (i : Nat) (mb : Pt)
    (hi : i < pts.length - 1)
    (hns : ¬(3 < pts.length ∧ distSq (cur + mb) (pts.getD (i + 1) default) ≤ 4))
    (hh : ¬cur.y = (pts.getD (i + 1) default).y)
    (hv : cur.x = (pts.getD (i + 1) default).x) :
    (nextAdjust cur pts i mb).getD (i + 1) default
      = pts.getD (i + 1) default + ⟨mb.x, 0⟩ := by
  unfold nextAdjust
  rw [if_pos hi, if_neg hh, if_pos hv]
  unfold nextSlide
  rw [if_neg hns]
  exact getD_movePointBy_self _ _ _ _ (by omega)

/-- Claim C4 amended: when wireMovePoint moves a vertex under the
preserve-straight-angles policy and the anti-collision slide on the corresponding
side does not trigger (it triggers when the wire has more than 3 points, the vertex
target lands within 2 units of the neighbor, and — on the predecessor side — the
matched index is at least 2; when it does trigger the neighbor segment is first slid
by the full delta, so the neighbor receives the full delta in addition to the
constrained component): if the segment from the predecessor to the moved vertex is
horizontal, only the y component of the move delta is applied to the predecessor; if
that segment is vertical (and not horizontal), only the x component; symmetrically
for the successor; and the targeted vertex itself is moved by the full delta
unconditionally.  The matched index is the first vertex fuzzy-equal to
point - movedBy, and pts has a length other than 2 so the insertion block does not
change the indexing. -/
theorem c4_neighbor_propagation (point mb : Pt) (pts : List Pt) (i : Nat)
    (hlen2 : pts.length ≠ 2)
    (hm : findMatchIdx (point - mb) pts = some i) :
    ((wireMovePoint true point pts mb).getD i default = pts.getD i default + mb) ∧
    (1 ≤ i →
      ¬(3 < pts.length ∧ 2 ≤ i ∧
          distSq (pts.getD i default + mb) (pts.getD (i - 1) default) ≤ 4) →
      (((pts.getD (i - 1) default).y = (pts.getD i default).y →
        (wireMovePoint true point pts mb).getD (i - 1) default
          = pts.getD (i - 1) default + ⟨0, mb.y⟩) ∧
      (¬(pts.getD (i - 1) default).y = (pts.getD i default).y →
        (pts.getD (i - 1) default).x = (pts.getD i default).x →
        (wireMovePoint true point pts mb).getD (i - 1) default
          = pts.getD (i - 1) default + ⟨mb.x, 0⟩))) ∧
    (i < pts.length - 1 →
      ¬(3 < pts.length ∧
          distSq (pts.getD i default + mb) (pts.getD (i + 1) default) ≤ 4) →
      (((pts.getD i default).y = (pts.getD (i + 1) default).y →
        (wireMovePoint true point pts mb).getD (i + 1) default
          = pts.getD (i + 1) default + ⟨0, mb.y⟩) ∧
      (¬(pts.getD i default).y = (pts.getD (i + 1) default).y →
        (pts.getD i default).x = (pts.getD (i + 1) default).x →
        (wireMovePoint true point pts mb).getD (i + 1) default
          = pts.getD (i + 1) default + ⟨mb.x, 0⟩))) := by
  have hins : wireMoveInsertTwo true pts mb = pts :=
    wireMoveInsertTwo_ne_two true pts mb hlen2
  have hw : wireMovePoint true point pts mb = wireApplyMove true pts i mb := by
    unfold wireMovePoint
    rw [hins, hm]
  have hil : i < pts.length := findMatchIdx_lt _ _ _ hm
  refine ⟨?_, ?_, ?_⟩
  · rw [hw]
    exact getD_wireApplyMove_at true pts i mb hil
  · intro hi hns
    constructor
    · intro hh
      rw [hw, getD_wireApplyMove_prevpos pts i mb hi,
        getD_prevAdjust_prev_h _ _ _ _ hi (by omega) hns hh]
    · intro hh hv
      rw [hw, getD_wireApplyMove_prevpos pts i mb hi,
        getD_prevAdjust_prev_v _ _ _ _ hi (by omega) hns hh hv]
  · intro hi hns
    have hP : (prevAdjust (pts.getD i default) pts i mb).getD (i + 1) default
        = pts.getD (i + 1) default :=
      getD_prevAdjust_far _ _ _ _ _ _ (by omega) (by omega)
    have hPl : (prevAdjust (pts.getD i default) pts i mb).length = pts.length :=
      prevAdjust_length _ _ _ _
    constructor
    · intro hh
      rw [hw, getD_wireApplyMove_nextpos pts i mb, ← hP,
        getD_nextAdjust_next_h _ _ _ _ (by rw [hPl]; exact hi)
          (by rw [hPl, hP]; exact hns) (by rw [hP]; exact hh), hP]
    · intro hh hv
      rw [hw, getD_wireApplyMove_nextpos pts i mb, ← hP,
        getD_nextAdjust_next_v _ _ _ _ (by rw [hPl]; exact hi)
          (by rw [hPl, hP]; exact hns) (by rw [hP]; exact hh) (by rw [hP]; exact hv), hP]

theorem c4_neighbor_propagation_witness :
    (findMatchIdx (⟨13, 5⟩ - ⟨3, 5⟩) [⟨0, 0⟩, ⟨10, 0⟩, ⟨10, 10⟩] = some 1) ∧
    (wireMovePoint true ⟨13, 5⟩ [⟨0, 0⟩, ⟨10, 0⟩, ⟨10, 10⟩] ⟨3, 5⟩).getD 1 default
        = ⟨13, 5⟩ ∧
    (wireMovePoint true ⟨13, 5⟩ [⟨0, 0⟩, ⟨10, 0⟩, ⟨10, 10⟩] ⟨3, 5⟩).getD 0 default
        = ⟨0, 5⟩ ∧
    (wireMovePoint true ⟨13, 5⟩ [⟨0, 0⟩, ⟨10, 0⟩, ⟨10, 10⟩] ⟨3, 5⟩).getD 2 default
        = ⟨13, 10⟩ := by
  have hm : findMatchIdx (⟨13, 5⟩ - ⟨3, 5⟩) [(⟨0, 0⟩ : Pt), ⟨10, 0⟩, ⟨10, 10⟩] = some 1 := by
    norm_num [findMatchIdx, fuzzyEqPtF, qFuzzyEqF, qabs, qmin, Pt.sub_def]
  have hc := c4_neighbor_propagation ⟨13, 5⟩ ⟨3, 5⟩ [⟨0, 0⟩, ⟨10, 0⟩, ⟨10, 10⟩] 1
    (by norm_num) hm
  refine ⟨hm, ?_, ?_, ?_⟩
  · rw [hc.1]
    norm_num [List.getD, Pt.add_def]
  · rw [(hc.2.1 (by norm_num) (by norm_num)).1 (by norm_num [List.getD])]
    norm_num [List.getD, Pt.add_def]
  · rw [(hc.2.2 (by norm_num) (by norm_num)).2
      (by norm_num [List.getD, Pt.mk_eq_iff]) (by norm_num [List.getD])]
    norm_num [List.getD, Pt.add_def]

/-- Claim C4 counterexample: the anti-collision slide breaks the only-one-component
rule.  On the wire [(0,0), (9/2,0), (5,0), (5,10)], moving the vertex (5,0) by
(1,1): the segment from the predecessor (9/2,0) to (5,0) is horizontal, so the claim
says only the y component (0,1) is applied to the predecessor; but the moved vertex
lands within 2 units of the predecessor, so the source first slides segment 0 by the
full delta, leaving the predecessor displaced by (1,2) — at (11/2,2) instead of
(9/2,1). -/
theorem c4_counterexample :
    (findMatchIdx (⟨6, 1⟩ - ⟨1, 1⟩) [⟨0, 0⟩, ⟨9 / 2, 0⟩, ⟨5, 0⟩, ⟨5, 10⟩] = some 2) ∧
    (List.getD [(⟨0, 0⟩ : Pt), ⟨9 / 2, 0⟩, ⟨5, 0⟩, ⟨5, 10⟩] 1 default).y
      = (List.getD [(⟨0, 0⟩ : Pt), ⟨9 / 2, 0⟩, ⟨5, 0⟩, ⟨5, 10⟩] 2 default).y ∧
    (wireMovePoint true ⟨6, 1⟩ [⟨0, 0⟩, ⟨9 / 2, 0⟩, ⟨5, 0⟩, ⟨5, 10⟩] ⟨1, 1⟩).getD 1 default
      = ⟨11 / 2, 2⟩ ∧
    (⟨11 / 2, 2⟩ : Pt) ≠ (⟨9 / 2, 0⟩ : Pt) + ⟨0, (1 : ℚ)⟩ := by
  refine ⟨?_, ?_, ?_, ?_⟩
  · norm_num [findMatchIdx, fuzzyEqPtF, qFuzzyEqF, qabs, qmin, Pt.sub_def]
  · norm_num [List.getD]
  · norm_num [wireMovePoint, wireMoveInsertTwo, findMatchIdx, fuzzyEqPtF, qFuzzyEqF,
      qabs, qmin, Pt.sub_def, wireApplyMove, prevAdjust, nextAdjust, prevSlide,
      nextSlide, moveLineSegmentBy, movePointBy, distSq, Pt.add_def, List.getD]
  · intro h
    rw [Pt.add_def, Pt.mk_eq_iff] at h
    norm_num at h

/-- Claim C10 counterexample: the vertex-match loop uses Qt's relative fuzzy
comparison, not exact equality.  On the one-point wire [(100000, 0)] with requested
move (1, 0) and point - movedBy = (200001/2, 0) — equal to no vertex — the vertex
still fuzzy-matches (relative error 5e-6) and is moved by the delta, although the
claim says that when no vertex equals point - movedBy no vertex is moved at all. -/
theorem c10_frame_counterexample :
    (∀ p ∈ [(⟨100000, 0⟩ : Pt)], p ≠ ⟨200003 / 2, 0⟩ - ⟨1, 0⟩) ∧
    wireMovePoint true ⟨200003 / 2, 0⟩ [⟨100000, 0⟩] ⟨1, 0⟩ = [⟨100001, 0⟩] := by
  constructor
  · intro p hp
    simp only [List.mem_singleton] at hp
    subst hp
    intro h
    rw [Pt.sub_def, Pt.mk_eq_iff] at h
    norm_num at h
  · norm_num [wireMovePoint, wireMoveInsertTwo, findMatchIdx, fuzzyEqPtF, qFuzzyEqF,
      qabs, qmin, Pt.sub_def, wireApplyMove, prevAdjust, nextAdjust, movePointBy,
      Pt.add_def]

/-- Claim C10 amended: for every call wireMovePoint(point, wire, movedBy): after the
optional two-midpoint insertion, at most one vertex is targeted — the first vertex in
index order whose position fuzzy-matches point - movedBy under Qt's relative float
tolerance (exact equality included) — and the only vertices modified lie within two
indices of the target (the target, at most its immediate predecessor and successor,
and the endpoints of up to two slid adjacent segments, one per side, in the
anti-collision case); every vertex more than two indices away keeps its position, and
if no vertex fuzzy-matches then no vertex is moved at all (the two-midpoint insertion
on a 2-point wire may still occur, since it is decided before the match is sought). -/
theorem c10_frame (preserve : Bool) (point mb : Pt) (pts : List Pt) :
    (findMatchIdx (point - mb) (wireMoveInsertTwo preserve pts mb) = none →
      wireMovePoint preserve point pts mb = wireMoveInsertTwo preserve pts mb) ∧
    (∀ i j : Nat,
      findMatchIdx (point - mb) (wireMoveInsertTwo preserve pts mb) = some i →
      j + 2 < i ∨ i + 2 < j →
      (wireMovePoint preserve point pts mb).getD j default
        = (wireMoveInsertTwo preserve pts mb).getD j default) := by
  constructor
  · intro hn
    unfold wireMovePoint
    rw [hn]
  · intro i j hm hj
    unfold wireMovePoint
    rw [hm]
    show (wireApplyMove preserve (wireMoveInsertTwo preserve pts mb) i mb).getD j default
        = (wireMoveInsertTwo preserve pts mb).getD j default
    unfold wireApplyMove
    split
    · rw [getD_movePointBy_ne _ _ _ _ _ (by omega),
        getD_nextAdjust_far _ _ _ _ _ _ (by omega) (by omega),
        getD_prevAdjust_far _ _ _ _ _ _ (by omega) (by omega)]
    · rw [getD_movePointBy_ne _ _ _ _ _ (by omega)]

theorem c10_frame_witness :
    (findMatchIdx (⟨0, 5⟩ - ⟨0, 5⟩)
        (wireMoveInsertTwo true [⟨0, 0⟩, ⟨10, 0⟩, ⟨10, 10⟩, ⟨20, 10⟩] ⟨0, 5⟩) = some 0) ∧
    (wireMovePoint true ⟨0, 5⟩ [⟨0, 0⟩, ⟨10, 0⟩, ⟨10, 10⟩, ⟨20, 10⟩] ⟨0, 5⟩).getD 3 default
      = (wireMoveInsertTwo true [⟨0, 0⟩, ⟨10, 0⟩, ⟨10, 10⟩, ⟨20, 10⟩] ⟨0, 5⟩).getD 3 default := by
  have hm : findMatchIdx (⟨0, 5⟩ - ⟨0, 5⟩)
      (wireMoveInsertTwo true [(⟨0, 0⟩ : Pt), ⟨10, 0⟩, ⟨10, 10⟩, ⟨20, 10⟩] ⟨0, 5⟩)
        = some 0 := by
    norm_num [wireMoveInsertTwo, findMatchIdx, fuzzyEqPtF, qFuzzyEqF, qabs, qmin,
      Pt.sub_def]
  exact ⟨hm, (c10_frame true ⟨0, 5⟩ ⟨0, 5⟩ _).2 0 3 hm (by omega)⟩

theorem attachToNet_nonempty {w : WireM} {hit : WireM → WireNetM → Bool}
    {nets nets1 : List WireNetM}
    (hH : ∀ m ∈ nets, 1 ≤ m.wires.length)
    (ha : attachToNet w hit nets = some nets1) :
    ∀ n ∈ nets1, 1 ≤ n.wires.length := by
  induction nets generalizing nets1 with
  | nil => exact absurd ha (by simp [attachToNet])
  | cons n0 rest ih =>
    unfold attachToNet at ha
    by_cases hh : hit w n0 = true
    · rw [if_pos hh] at ha
      injection ha with ha
      subst ha
      intro n hn
      rcases List.mem_cons.mp hn with h1 | h1
      · subst h1
        simp
      · exact hH n (List.mem_cons_of_mem n0 h1)
    · rw [if_neg hh] at ha
      cases hrec : attachToNet w hit rest with
      | none => rw [hrec] at ha; exact absurd ha (by simp)
      | some l =>
        rw [hrec] at ha
        injection ha with ha
        subst ha
        intro n hn
        rcases List.mem_cons.mp hn with h1 | h1
        · rw [h1]
          exact hH n0 (List.mem_cons_self n0 rest)
        · exact ih (fun m hm => hH m (List.mem_cons_of_mem n0 hm)) hrec n h1

theorem sceneAddWire_nonempty (s : SceneM) (ow : Option WireM)
    (hH : ∀ n ∈ s.nets, 1 ≤ n.wires.length) :
    ∀ n ∈ (sceneAddWire s ow).1.nets, 1 ≤ n.wires.length := by
  cases ow with
  | none => exact hH
  | some w =>
    show ∀ n ∈ (sceneAddWire s (some w)).1.nets, 1 ≤ n.wires.length
    simp only [sceneAddWire]
    cases h1 : attachToNet w addWireScan1 s.nets with
    | some nets1 =>
      simpa using attachToNet_nonempty hH h1
    | none =>
      cases h2 : attachToNet w addWireScan2 s.nets with
      | some nets1 =>
        simpa using attachToNet_nonempty hH h2
      | none =>
        show ∀ n ∈ (if (s.items.any fun it => it.id == w.id) = true then
            ((⟨s.items, s.nets ++ [⟨"", false, [w]⟩]⟩ : SceneM), true)
          else (⟨s.items ++ [w], s.nets ++ [⟨"", false, [w]⟩]⟩, true)).1.nets,
            1 ≤ n.wires.length
        split
        case isTrue =>
          intro n hn
          simp only [List.mem_append, List.mem_singleton] at hn
          rcases hn with hn | hn
          · exact hH n hn
          · subst hn
            simp
        case isFalse =>
          intro n hn
          simp only [List.mem_append, List.mem_singleton] at hn
          rcases hn with hn | hn
          · exact hH n hn
          · subst hn
            simp

theorem removeFromFirstNet_nonempty (ow : Option WireM) (nets : List WireNetM)
    (hH : ∀ n ∈ nets, 1 ≤ n.wires.length) :
    ∀ n ∈ removeFromFirstNet ow nets, 1 ≤ n.wires.length := by
  cases ow with
  | none => simpa only [removeFromFirstNet] using hH
  | some w =>
    revert hH
    induction nets with
    | nil =>
      intro hH n hn
      simp [removeFromFirstNet] at hn
    | cons n0 rest ih =>
      intro hH
      simp only [removeFromFirstNet]
      split
      · split
        case isTrue =>
          exact fun n hn => hH n (List.mem_cons_of_mem n0 hn)
        case isFalse hlen =>
          intro n hn
          rcases List.mem_cons.mp hn with h | h
          · rw [h]
            exact Nat.one_le_iff_ne_zero.mpr hlen
          · exact hH n (List.mem_cons_of_mem n0 h)
      · intro n hn
        rcases List.mem_cons.mp hn with h | h
        · rw [h]
          exact hH n0 (List.mem_cons_self n0 rest)
        · exact ih (fun m hm => hH m (List.mem_cons_of_mem n0 hm)) n h

theorem filter_all_id_nil (wid : Nat) (l : List WireM)
    (h : l.all (fun x => x.id == wid) = true) :
    l.filter (fun x => !(x.id == wid)) = [] := by
  induction l with
  | nil => rfl
  | cons y l ih =>
    simp only [List.all_cons, Bool.and_eq_true] at h
    simp [List.filter_cons, h.1, ih h.2]

theorem map_filter_keep_of_no_contains (w : WireM) (rest : List WireNetM)
    (hH : ∀ m ∈ rest, 1 ≤ m.wires.length)
    (h0 : ∀ m ∈ rest, ¬ netContains m (some w) = true) :
    ((rest.map (fun n => if netContains n (some w) then
        (⟨n.name, n.highlighted, n.wires.filter (fun x => !(x.id == w.id))⟩ : WireNetM)
      else n)).filter (fun n => decide (1 ≤ n.wires.length))) = rest := by
  induction rest with
  | nil => rfl
  | cons m l ih =>
    simp only [List.map_cons]
    rw [if_neg (h0 m (List.mem_cons_self m l))]
    rw [List.filter_cons, if_pos (by simpa using hH m (List.mem_cons_self m l))]
    rw [ih (fun a ha => hH a (List.mem_cons_of_mem m ha))
      (fun a ha => h0 a (List.mem_cons_of_mem m ha))]

theorem remove_count_aux (w : WireM) (nets : List WireNetM)
    (hH : ∀ n ∈ nets, 1 ≤ n.wires.length)
    (hcount : nets.countP (fun n => netContains n (some w)) = 1)
    (hall : ∀ n ∈ nets, netContains n (some w) = true →
      n.wires.all (fun x => x.id == w.id) = true) :
    ((nets.map (fun n => if netContains n (some w) then
        (⟨n.name, n.highlighted, n.wires.filter (fun x => !(x.id == w.id))⟩ : WireNetM)
      else n)).filter (fun n => decide (1 ≤ n.wires.length))).length + 1
      = nets.length := by
  revert hH hcount hall
  induction nets with
  | nil =>
    intro hH hcount hall
    simp at hcount
  | cons n0 rest ih =>
    intro hH hcount hall
    by_cases hc : netContains n0 (some w) = true
    · have hrest : rest.countP (fun n => netContains n (some w)) = 0 := by
        rw [List.countP_cons] at hcount
        simp only [hc, if_pos] at hcount
        omega
      have hnil : n0.wires.filter (fun x => !(x.id == w.id)) = [] :=
        filter_all_id_nil w.id n0.wires (hall n0 (List.mem_cons_self n0 rest) hc)
      simp only [List.map_cons]
      rw [if_pos hc, List.filter_cons, if_neg (by simp [hnil])]
      rw [map_filter_keep_of_no_contains w rest
        (fun a ha => hH a (List.mem_cons_of_mem n0 ha))
        (fun a ha => by
          have := List.countP_eq_zero.mp hrest a ha
          simpa using this)]
      simp
    · have hrest : rest.countP (fun n => netContains n (some w)) = 1 := by
        rw [List.countP_cons] at hcount
        simp only [hc, if_neg] at hcount
        simpa using hcount
      simp only [List.map_cons]
      rw [if_neg hc, List.filter_cons,
        if_pos (by simpa using hH n0 (List.mem_cons_self n0 rest))]
      have := ih (fun a ha => hH a (List.mem_cons_of_mem n0 ha)) hrest
        (fun a ha hca => hall a (List.mem_cons_of_mem n0 ha) hca)
      simp only [List.length_cons]
      omega

/-- Claim C2: between operations every WireNet held by the scene contains at least
one wire: addWire, removeWire and wirePointMoved all preserve the nonempty-net
invariant (removeWire and wirePointMoved erase any net whose wire count drops below
1); and when a wire w is the last wire of its net — it lies in exactly one net and
that net holds only w — removeWire decreases the net count by exactly 1. -/
theorem c2_net_invariant (s : SceneM) (hH : ∀ n ∈ s.nets, 1 ≤ n.wires.length) :
    (∀ ow, ∀ n ∈ (sceneAddWire s ow).1.nets, 1 ≤ n.wires.length) ∧
    (∀ ow, ∀ n ∈ (sceneRemoveWire s ow).1.nets, 1 ≤ n.wires.length) ∧
    (∀ ow, ∀ n ∈ (sceneWirePointMoved s ow).nets, 1 ≤ n.wires.length) ∧
    (∀ w : WireM,
      s.nets.countP (fun n => netContains n (some w)) = 1 →
      (∀ n ∈ s.nets, netContains n (some w) = true →
        n.wires.all (fun x => x.id == w.id) = true) →
      (sceneRemoveWire s (some w)).1.nets.length + 1 = s.nets.length) := by
  refine ⟨fun ow => sceneAddWire_nonempty s ow hH, ?_, ?_, ?_⟩
  · intro ow n hn
    cases ow with
    | none =>
      simp only [sceneRemoveWire] at hn
      exact of_decide_eq_true (List.mem_filter.mp hn).2
    | some w =>
      simp only [sceneRemoveWire] at hn
      exact of_decide_eq_true (List.mem_filter.mp hn).2
  · intro ow
    exact sceneAddWire_nonempty _ ow (removeFromFirstNet_nonempty ow s.nets hH)
  · intro w hcount hall
    simp only [sceneRemoveWire]
    exact remove_count_aux w s.nets hH hcount hall

theorem c2_net_invariant_witness :
    (∀ n ∈ sW.nets, 1 ≤ n.wires.length) ∧
    (sceneRemoveWire sW (some wW)).1.nets.length + 1 = sW.nets.length :=
  ⟨by decide, (c2_net_invariant sW (by decide)).2.2.2 wW (by decide) (by decide)⟩

/-- Claim C9 amended: addWire(null) returns false and leaves the scene unchanged;
addWire returns true for every non-null wire; removeWire(null) however returns true —
not the failure false — while leaving the item list unchanged, and the net list
unchanged as well whenever no net is empty (the unconditional empty-net sweep is the
only thing it can still do on null input). -/
theorem c9_null_handling (s : SceneM) :
    (sceneAddWire s none = (s, false)) ∧
    (∀ w, (sceneAddWire s (some w)).2 = true) ∧
    ((sceneRemoveWire s none).2 = true) ∧
    ((sceneRemoveWire s none).1.items = s.items) ∧
    ((∀ n ∈ s.nets, 1 ≤ n.wires.length) → (sceneRemoveWire s none).1 = s) := by
  refine ⟨rfl, ?_, rfl, rfl, ?_⟩
  · intro w
    simp only [sceneAddWire]
    cases h1 : attachToNet w addWireScan1 s.nets with
    | some nets1 => rfl
    | none =>
      cases h2 : attachToNet w addWireScan2 s.nets with
      | some nets1 => rfl
      | none =>
        show (if (s.items.any fun it => it.id == w.id) = true then
            ((⟨s.items, s.nets ++ [⟨"", false, [w]⟩]⟩ : SceneM), true)
          else (⟨s.items ++ [w], s.nets ++ [⟨"", false, [w]⟩]⟩, true)).2 = true
        split
        · rfl
        · rfl
  · intro h
    cases s with
    | mk items nets =>
      show (⟨items, nets.filter (fun n => decide (1 ≤ n.wires.length))⟩ : SceneM)
          = ⟨items, nets⟩
      rw [SceneM.mk.injEq]
      refine ⟨rfl, ?_⟩
      rw [List.filter_eq_self]
      intro a ha
      exact decide_eq_true (h a ha)

/-- Claim C9 counterexample: removeWire on a null wire returns true, not the failure
boolean false the claim demands (the source returns true unconditionally); the scene
is nevertheless unchanged. -/
theorem c9_remove_null_counterexample :
    (sceneRemoveWire sRW none).2 = true ∧ (sceneRemoveWire sRW none).1 = sRW := by
  constructor
  · rfl
  · decide

theorem c9_null_handling_witness :
    (∀ n ∈ sRW.nets, 1 ≤ n.wires.length) ∧
    (sceneRemoveWire sRW none).1 = sRW ∧
    (sceneAddWire sRW none).2 = false :=
  ⟨by decide, (c9_null_handling sRW).2.2.2.2 (by decide),
   congrArg Prod.snd (c9_null_handling sRW).1⟩

/-- Claim C8 counterexample: nets(W) does not exclude W itself: for the scene whose
net list is [W], W bearing the non-empty name Vcc, nets(W) returns a list containing
W — the claim demands W be excluded.  The self-exclusion happens only in the caller
wireNetHighlightChanged. -/
theorem c8_nets_counterexample :
    netN8.name ≠ "" ∧ netN8 ∈ sceneNetsOf s8 netN8 := by
  constructor
  · decide
  · decide

/-- Claim C8 amended: nets(W) returns exactly the nets of the scene's net list whose
name is non-empty and equals W's name under case-insensitive comparison — W itself
included whenever W is in the list and has a non-empty name (the caller
wireNetHighlightChanged skips W when propagating highlights); nets with an empty
name are never returned. -/
theorem c8_nets_by_name (s : SceneM) (wn n : WireNetM) :
    n ∈ sceneNetsOf s wn ↔
      n ∈ s.nets ∧ n.name ≠ "" ∧ qstrCIEq n.name wn.name = true := by
  unfold sceneNetsOf
  rw [List.mem_filter]
  simp [Bool.and_eq_true, Bool.not_eq_true', and_assoc]

theorem mem_ite_singleton {α : Type} {c : Prop} [Decidable c] {a b : α} :
    (a ∈ if c then [b] else []) ↔ c ∧ a = b := by
  split
  case isTrue h => simp [h]
  case isFalse h => simp [h]

/-- Claim C6 amended: the node move/rotate propagation tests — wiresConnectedTo is
characterized here; the rotation handler applies the same strict comparison — deem a
wire vertex and a shifted connection point coincident exactly when their distance is
strictly below 0.001 scene units; the addWire scans instead round the tested point
to integer coordinates and use zero-tolerance segment containment, so they do not
implement the 0.001 epsilon (see the counterexample). -/
theorem c6_connected_iff (s : SceneM) (node : NodeM) (offset : Pt) (w : WireM) :
    w ∈ wiresConnectedTo s node offset ↔
      (w ∈ sceneWires s ∧ ∃ wp ∈ w.points, ∃ cp ∈ connectionPointsAbsolute node,
        distSq wp (cp + offset) < 1 / 1000 * (1 / 1000)) := by
  unfold wiresConnectedTo
  simp only [List.mem_flatMap, mem_ite_singleton, List.any_eq_true, decide_eq_true_eq]
  constructor
  · rintro ⟨w1, hw1, wp, hwp, ⟨cp, hcp, hd⟩, rfl⟩
    exact ⟨hw1, wp, hwp, cp, hcp, hd⟩
  · rintro ⟨hw, wp, hwp, cp, hcp, hd⟩
    exact ⟨w, hw, wp, hwp, ⟨cp, hcp, hd⟩, rfl⟩

/-- Claim C6 counterexample: the addWire coincidence scan does not use the 0.001
epsilon: the new wire's vertex (0, 2/5) sits 2/5 scene units away from the existing
net's only segment — far beyond 0.001, as witnessed by the spec's tolerance-aware
containment test at 0.001 returning false for both of its vertices — yet addWire
deems it coincident (its scan rounds the vertex to the integer point (0, 0) and
tests containment with tolerance 0) and attaches the wire to that net. -/
theorem c6_addwire_counterexample :
    ((sceneAddWire s6 (some wB6)).1.nets.map (fun n => n.wires.map (fun x => x.id)))
        = [[1, 2]] ∧
    containsPointQ ⟨0, 0⟩ ⟨10, 0⟩ ⟨0, 2 / 5⟩ (1 / 1000) = false ∧
    containsPointQ ⟨0, 0⟩ ⟨10, 0⟩ ⟨20, 2 / 5⟩ (1 / 1000) = false := by
  refine ⟨?_, ?_, ?_⟩
  · norm_num [sceneAddWire, attachToNet, addWireScan1, netLineSegments, wireSegments,
      containsPointQ, dotPP, crossPP, distSq, qRoundPt, qRoundQ, Pt.sub_def,
      s6, wA6, wB6]
  · norm_num [containsPointQ, dotPP, crossPP, distSq, Pt.sub_def]
  · norm_num [containsPointQ, dotPP, crossPP, distSq, Pt.sub_def]

end QSchematic

